import Mathlib

/-!
Verification of the hierarchy-construction and index-generation core of
`doc/htmldoc/_ext/extractor_userdocs.py`.

The Python code is shallowly embedded:
* a Python `dict` (tag → list/set of documents) becomes an association list
  with distinct keys (`TagMap`), iterated in insertion order like a dict;
* Python `set`s of document names become `Finset Doc`;
* the `TypeError` raised by `set.intersection()` on an empty argument list
  becomes `Option.none`;
* strings are Lean `String`s, and where character-level reasoning is needed
  their `List Char` data is used.
-/

namespace Userdocs

abbrev Tag := String

abbrev Doc := String

/-- Python `dict` mapping tags to lists of document file names, as an
association list in insertion order (a dict never has duplicate keys; theorems
that depend on this carry a `Nodup` hypothesis). -/
abbrev TagMap := List (Tag × List Doc)

/-- `tags.keys()`. -/
def tagKeys (tags : TagMap) : List Tag :=
  tags.map Prod.fst

/-- `baseitems = set.intersection(*[set(items) for tag, items in tags.items() if tag in basetags])`
from `make_hierarchy`.  Calling `set.intersection` with an empty argument list
raises `TypeError`; this is modelled by `none`. -/
def baseitemsOf (tags : TagMap) (basetags : List Tag) : Option (Finset Doc) :=
  match (tags.filter fun kv => decide (kv.1 ∈ basetags)).map (fun kv => kv.2.toFinset) with
  | [] => none
  | s :: rest => some (rest.foldl (fun a b => a ∩ b) s)

/-- The loop of `make_hierarchy`:
`subtags = [t for t in tags.keys() if t not in basetags]` followed by
`for subtag in subtags: docs = set(tags[subtag]).intersection(baseitems); if docs: tree[subtag] = docs`.
Since a dict has unique keys, iterating its keys and indexing back is the same
as iterating its items. -/
def treeOf (tags : TagMap) (basetags : List Tag) (baseitems : Finset Doc) : List (Tag × Finset Doc) :=
  (tags.filter fun kv => decide (kv.1 ∉ basetags)).filterMap fun kv =>
    if (kv.2.toFinset ∩ baseitems).Nonempty then some (kv.1, kv.2.toFinset ∩ baseitems) else none

/-- `set.union(*tree.values())` generalized: union of the values of a
tag → set dict (for an empty dict Python would raise, but the source guards
the call with `if tree.values():`). -/
def unionVals (tree : List (Tag × Finset Doc)) : Finset Doc :=
  tree.foldl (fun acc kv => acc ∪ kv.2) ∅

/-- Python dict assignment `d[k] = v`: overwrite in place if the key is
present, otherwise append a new entry. -/
def dictInsert (tree : List (Tag × Finset Doc)) (k : Tag) (v : Finset Doc) :
    List (Tag × Finset Doc) :=
  if tree.any fun kv => decide (kv.1 = k) then
    tree.map fun kv => if kv.1 = k then (k, v) else kv
  else tree ++ [(k, v)]

/-- The tail of `make_hierarchy` after `baseitems` is known:
builds `tree`, then
`remaining = None; if tree.values(): remaining = baseitems.difference(set.union(*tree.values()));`
`if remaining: tree[""] = remaining`. -/
def make_tree (tags : TagMap) (basetags : List Tag) (baseitems : Finset Doc) :
    List (Tag × Finset Doc) :=
  if treeOf tags basetags baseitems = [] then []
  else if (baseitems \ unionVals (treeOf tags basetags baseitems)).Nonempty then
    dictInsert (treeOf tags basetags baseitems) ""
      (baseitems \ unionVals (treeOf tags basetags baseitems))
  else treeOf tags basetags baseitems

/-- Return value of `make_hierarchy`: either the input dict unchanged (no
basetags) or the one-key dict `{basetags: tree}`. -/
inductive Hier where
  | flat (tags : TagMap)
  | node (basetags : List Tag) (tree : List (Tag × Finset Doc))
deriving DecidableEq

/-- `make_hierarchy(tags, *basetags)`.  `none` models the `TypeError` raised
by `set.intersection()` when no tag of `basetags` occurs in `tags`. -/
def make_hierarchy (tags : TagMap) (basetags : List Tag) : Option Hier :=
  if basetags = [] then some (.flat tags)
  else (baseitemsOf tags basetags).map fun b => .node basetags (make_tree tags basetags b)

/-- State-passing rendition of `make_hierarchy`: the `tags` dict is the
mutable state; every statement of the Python body only reads it (`items()`,
`keys()`, indexing), all writes go to the fresh `tree` dict, so the body is a
single `get` followed by a pure computation. -/
def make_hierarchy_st (basetags : List Tag) : StateM TagMap (Option Hier) := do
  let tags ← get
  if basetags = [] then
    pure (some (.flat tags))
  else
    pure ((baseitemsOf tags basetags).map fun b => .node basetags (make_tree tags basetags b))

/-- Running example from the specification: `TagMap {"A": {d1,d2}, "B": {d2,d3}}`. -/
def exTags : TagMap := [("A", ["d1", "d2"]), ("B", ["d2", "d3"])]

theorem foldl_union_acc : ∀ (l : List (Tag × Finset Doc)) (acc : Finset Doc),
    l.foldl (fun a kv => a ∪ kv.2) acc = acc ∪ unionVals l
  | [], acc => by simp [unionVals]
  | kv :: l, acc => by
    simp only [unionVals, List.foldl_cons]
    rw [foldl_union_acc l (acc ∪ kv.2), foldl_union_acc l (∅ ∪ kv.2), Finset.empty_union,
      Finset.union_assoc]

theorem unionVals_cons (kv : Tag × Finset Doc) (l : List (Tag × Finset Doc)) :
    unionVals (kv :: l) = kv.2 ∪ unionVals l := by
  simp only [unionVals, List.foldl_cons]
  rw [foldl_union_acc, Finset.empty_union]
  rfl

theorem unionVals_append (l₁ l₂ : List (Tag × Finset Doc)) :
    unionVals (l₁ ++ l₂) = unionVals l₁ ∪ unionVals l₂ := by
  simp only [unionVals, List.foldl_append]
  rw [foldl_union_acc]
  rfl

theorem mem_unionVals {d : Doc} {l : List (Tag × Finset Doc)} :
    d ∈ unionVals l ↔ ∃ kv ∈ l, d ∈ kv.2 := by
  induction l with
  | nil => simp [unionVals]
  | cons kv l ih => rw [unionVals_cons]; simp [ih]

theorem treeOf_val_subset {tags : TagMap} {basetags : List Tag} {b : Finset Doc}
    {kv : Tag × Finset Doc} (h : kv ∈ treeOf tags basetags b) : kv.2 ⊆ b := by
  simp only [treeOf, List.mem_filterMap] at h
  obtain ⟨a, _, hfa⟩ := h
  by_cases hd : (a.2.toFinset ∩ b).Nonempty
  · rw [if_pos hd] at hfa
    obtain rfl := Option.some.inj hfa
    exact Finset.inter_subset_right
  · rw [if_neg hd] at hfa
    cases hfa

theorem treeOf_key_mem {tags : TagMap} {basetags : List Tag} {b : Finset Doc}
    {kv : Tag × Finset Doc} (h : kv ∈ treeOf tags basetags b) : kv.1 ∈ tagKeys tags := by
  simp only [treeOf, List.mem_filterMap, List.mem_filter] at h
  obtain ⟨a, ⟨ha, _⟩, hfa⟩ := h
  by_cases hd : (a.2.toFinset ∩ b).Nonempty
  · rw [if_pos hd] at hfa
    obtain rfl := Option.some.inj hfa
    exact List.mem_map_of_mem Prod.fst ha
  · rw [if_neg hd] at hfa
    cases hfa

theorem unionVals_treeOf_subset (tags : TagMap) (basetags : List Tag) (b : Finset Doc) :
    unionVals (treeOf tags basetags b) ⊆ b := by
  intro d hd
  rw [mem_unionVals] at hd
  obtain ⟨kv, hkv, hdm⟩ := hd
  exact treeOf_val_subset hkv hdm

theorem dictInsert_not_mem {tree : List (Tag × Finset Doc)} {k : Tag} {v : Finset Doc}
    (h : ∀ kv ∈ tree, kv.1 ≠ k) : dictInsert tree k v = tree ++ [(k, v)] := by
  rw [dictInsert, if_neg]
  intro hc
  simp only [List.any_eq_true, decide_eq_true_eq] at hc
  obtain ⟨kv, hkv, he⟩ := hc
  exact h kv hkv he

theorem treeOf_keys_ne_empty {tags : TagMap} {basetags : List Tag} {b : Finset Doc}
    (h : "" ∉ tagKeys tags) : ∀ kv ∈ treeOf tags basetags b, kv.1 ≠ "" := by
  intro kv hkv he
  exact h (he ▸ treeOf_key_mem hkv)

/-- Claim C2 (amended): given computable baseitems `b`, if at least one
sub-facet was attached then `make_hierarchy` appends the uncategorized bucket
`b − union(docs_s)` exactly when that difference is non-empty; if no sub-facet
qualifies, the tree stays empty and no uncategorized bucket is attached. -/
theorem uncategorized_bucket (tags : TagMap) (basetags : List Tag) (b : Finset Doc)
    (hb : baseitemsOf tags basetags = some b) (hk : "" ∉ tagKeys tags) :
    (treeOf tags basetags b ≠ [] →
      make_tree tags basetags b = treeOf tags basetags b ++
        (if (b \ unionVals (treeOf tags basetags b)).Nonempty then
          [("", b \ unionVals (treeOf tags basetags b))] else []))
    ∧ (treeOf tags basetags b = [] → make_tree tags basetags b = []) := by
  constructor
  · intro hne
    rw [make_tree, if_neg hne]
    by_cases hr : (b \ unionVals (treeOf tags basetags b)).Nonempty
    · rw [if_pos hr, if_pos hr, dictInsert_not_mem (treeOf_keys_ne_empty hk)]
    · rw [if_neg hr, if_neg hr, List.append_nil]
  · intro he
    rw [make_tree, if_pos he]

/-- Claim C2 (counterexample to claim as stated): for the TagMap
`[("A",[d1,d2]),("B",[d2,d3])]` and combination `("A","B")`, baseitems is
`{d2}` and the claimed uncategorized bucket `{d2}` is non-empty, yet the code
produces an empty partition with no uncategorized bucket at all (the bucket
is only computed when at least one sub-facet was attached). -/
theorem uncategorized_bucket_cex :
    baseitemsOf exTags ["A", "B"] = some {"d2"}
    ∧ ({"d2"} : Finset Doc).Nonempty
    ∧ make_hierarchy exTags ["A", "B"] = some (.node ["A", "B"] []) := by
  refine ⟨by decide, ⟨"d2", by decide⟩, by decide⟩

/-- Claim C2 witness: instantiation of `uncategorized_bucket` on the
specification's running example at combination `("A",)`. -/
theorem uncategorized_bucket_witness :
    (treeOf exTags ["A"] {"d1", "d2"} ≠ [] →
      make_tree exTags ["A"] {"d1", "d2"} = treeOf exTags ["A"] {"d1", "d2"} ++
        (if ({"d1", "d2"} \ unionVals (treeOf exTags ["A"] {"d1", "d2"})).Nonempty then
          [("", {"d1", "d2"} \ unionVals (treeOf exTags ["A"] {"d1", "d2"}))] else []))
    ∧ (treeOf exTags ["A"] {"d1", "d2"} = [] → make_tree exTags ["A"] {"d1", "d2"} = []) :=
  uncategorized_bucket exTags ["A"] {"d1", "d2"} (by decide) (by decide)

/-- Claim C1 (amended): for a non-empty combination whose baseitems computation
succeeds, the partition never fabricates documents (union of all attached sets,
uncategorized bucket included, is contained in baseitems), and it is exhaustive
(the union equals baseitems) whenever at least one sub-facet was attached.
When no remaining tag intersects baseitems, the partition is empty and any
non-empty baseitems set is dropped. -/
theorem make_hierarchy_exhaustive (tags : TagMap) (basetags : List Tag)
    (tree : List (Tag × Finset Doc)) (hne : basetags ≠ []) (hk : "" ∉ tagKeys tags)
    (hmk : make_hierarchy tags basetags = some (.node basetags tree)) :
    ∃ b, baseitemsOf tags basetags = some b ∧ unionVals tree ⊆ b
      ∧ (treeOf tags basetags b ≠ [] → unionVals tree = b) := by
  rw [make_hierarchy, if_neg hne] at hmk
  obtain ⟨b, hb, hnode⟩ := Option.map_eq_some'.mp hmk
  obtain ⟨-, htree⟩ := Hier.node.inj hnode
  subst htree
  refine ⟨b, hb, ?_, ?_⟩
  · by_cases h0 : treeOf tags basetags b = []
    · rw [make_tree, if_pos h0, unionVals]
      simp
    · rcases (uncategorized_bucket tags basetags b hb hk).1 h0 with heq
      rw [heq]
      by_cases hr : (b \ unionVals (treeOf tags basetags b)).Nonempty
      · rw [if_pos hr, unionVals_append, unionVals_cons]
        have h1 := unionVals_treeOf_subset tags basetags b
        intro d hd
        rcases Finset.mem_union.mp hd with hd | hd
        · exact h1 hd
        · rcases Finset.mem_union.mp hd with hd | hd
          · exact (Finset.sdiff_subset) hd
          · simp [unionVals] at hd
      · rw [if_neg hr, List.append_nil]
        exact unionVals_treeOf_subset tags basetags b
  · intro h0
    rcases (uncategorized_bucket tags basetags b hb hk).1 h0 with heq
    rw [heq]
    by_cases hr : (b \ unionVals (treeOf tags basetags b)).Nonempty
    · rw [if_pos hr, unionVals_append, unionVals_cons]
      have : unionVals ([] : List (Tag × Finset Doc)) = ∅ := by simp [unionVals]
      rw [this, Finset.union_empty]
      exact Finset.union_sdiff_of_subset (unionVals_treeOf_subset tags basetags b)
    · rw [if_neg hr, List.append_nil]
      have hsub := unionVals_treeOf_subset tags basetags b
      have hsup : b ⊆ unionVals (treeOf tags basetags b) := by
        rw [← Finset.sdiff_eq_empty_iff_subset]
        exact Finset.not_nonempty_iff_eq_empty.mp hr
      exact Finset.Subset.antisymm hsub hsup

/-- Claim C1 (counterexample to claim as stated): with TagMap `[("A",[d1])]`
and combination `("A",)` every tag of the combination occurs in the TagMap and
baseitems is the non-empty set `{d1}`, yet the partition is completely empty —
`d1` is lost, so the union of all attached document sets is not baseitems. -/
theorem make_hierarchy_exhaustive_cex :
    make_hierarchy [("A", ["d1"])] ["A"] = some (.node ["A"] [])
    ∧ baseitemsOf [("A", ["d1"])] ["A"] = some {"d1"}
    ∧ unionVals [] = (∅ : Finset Doc)
    ∧ ({"d1"} : Finset Doc) ≠ (∅ : Finset Doc) := by
  refine ⟨by decide, by decide, by simp [unionVals], by decide⟩

/-- Claim C1 witness: instantiation of `make_hierarchy_exhaustive` on the
specification's running example at combination `("A",)`. -/
theorem make_hierarchy_exhaustive_witness :
    ∃ b, baseitemsOf exTags ["A"] = some b
      ∧ unionVals [("B", {"d2"}), ("", {"d1"})] ⊆ b
      ∧ (treeOf exTags ["A"] b ≠ [] → unionVals [("B", {"d2"}), ("", {"d1"})] = b) :=
  make_hierarchy_exhaustive exTags ["A"] [("B", {"d2"}), ("", {"d1"})]
    (by decide) (by decide) (by decide)

theorem treeOf_baseitems_empty (tags : TagMap) (basetags : List Tag) :
    treeOf tags basetags ∅ = [] := by
  simp [treeOf]

theorem baseitemsOf_eq_none_iff (tags : TagMap) (basetags : List Tag) :
    baseitemsOf tags basetags = none ↔
      (tags.filter fun kv => decide (kv.1 ∈ basetags)) = [] := by
  rcases h : tags.filter fun kv => decide (kv.1 ∈ basetags) with _ | ⟨kv, r⟩ <;>
    simp [baseitemsOf, h]

/-- Claim C7 (amended): for a non-empty combination, `make_hierarchy` succeeds
exactly when at least one tag of the combination occurs in the TagMap — when
none does, `set.intersection()` is called with no arguments and raises
`TypeError` (modelled by `none`); baseitems is the intersection over the
present tags only, so it need not be empty when some tag is absent; and an
empty baseitems set degrades to an empty partition. -/
theorem make_hierarchy_absent_tags (tags : TagMap) (basetags : List Tag)
    (hne : basetags ≠ []) :
    ((∃ t ∈ basetags, t ∈ tagKeys tags) ↔ (make_hierarchy tags basetags).isSome = true)
    ∧ (baseitemsOf tags basetags = some ∅ →
        make_hierarchy tags basetags = some (.node basetags [])) := by
  constructor
  · rw [make_hierarchy, if_neg hne, Option.isSome_map']
    constructor
    · rintro ⟨t, htB, htK⟩
      simp only [tagKeys, List.mem_map] at htK
      obtain ⟨kv, hkv, rfl⟩ := htK
      rw [Option.isSome_iff_ne_none]
      intro hnone
      rw [baseitemsOf_eq_none_iff, List.filter_eq_nil_iff] at hnone
      exact hnone kv hkv (by simpa using htB)
    · intro hsome
      have hnn : ¬ baseitemsOf tags basetags = none := by
        intro hn
        rw [hn] at hsome
        cases hsome
      rw [baseitemsOf_eq_none_iff, List.filter_eq_nil_iff] at hnn
      push_neg at hnn
      obtain ⟨kv, hkv, hb⟩ := hnn
      exact ⟨kv.1, by simpa using hb, List.mem_map_of_mem Prod.fst hkv⟩
  · intro hb
    rw [make_hierarchy, if_neg hne, hb, Option.map_some', make_tree,
      if_pos (treeOf_baseitems_empty tags basetags)]

/-- Claim C7 (counterexample to claim as stated): with TagMap `[("A",[d1])]`,
the combination `("X","A")` contains the absent tag `"X"` yet its baseitems is
the non-empty `{d1}` (the intersection only ranges over present tags), and the
combination `("X",)` whose tags are all absent makes `make_hierarchy` raise a
`TypeError` instead of degrading gracefully. -/
theorem make_hierarchy_absent_tags_cex :
    baseitemsOf [("A", ["d1"])] ["X", "A"] = some {"d1"}
    ∧ ({"d1"} : Finset Doc) ≠ (∅ : Finset Doc)
    ∧ make_hierarchy [("A", ["d1"])] ["X"] = none := by
  refine ⟨by decide, by decide, by decide⟩

/-- Claim C7 witness: instantiation of `make_hierarchy_absent_tags` on the
running example. -/
theorem make_hierarchy_absent_tags_witness :
    ((∃ t ∈ ["A"], t ∈ tagKeys exTags) ↔ (make_hierarchy exTags ["A"]).isSome = true)
    ∧ (baseitemsOf exTags ["A"] = some ∅ →
        make_hierarchy exTags ["A"] = some (.node ["A"] [])) :=
  make_hierarchy_absent_tags exTags ["A"] (by decide)

/-- Claim C10: `make_hierarchy` never mutates its input dict.  In the
state-passing embedding, where the `tags` dict is the mutable state, running
the body returns the unchanged dict together with the same result as the pure
function: every statement of the source only reads `tags`; all writes go to
the freshly created `tree` dict. -/
theorem make_hierarchy_no_mutation (tags : TagMap) (basetags : List Tag) :
    (make_hierarchy_st basetags).run tags = (make_hierarchy tags basetags, tags) := by
  by_cases h : basetags = []
  · simp only [make_hierarchy_st, make_hierarchy, h, if_true, reduceIte]
    rfl
  · simp only [make_hierarchy_st, make_hierarchy, h, if_false, reduceIte]
    rfl

/-! Combination enumeration from `CreateTagIndices`:
`chain(*[combinations(taglist, L) for L in range(depth + 1)])` with
`depth = min(4, len(taglist))`, and the expected-count computation
`nindices = sum([comb(len(taglist), L) for L in range(depth - 1)])`. -/

/-- `itertools.combinations(l, n)`: all length-`n` subsequences of `l`, in the
lexicographic order of the positions of their elements in `l`. -/
def combinationsL {α : Type} : Nat → List α → List (List α)
  | 0, _ => [[]]
  | _ + 1, [] => []
  | n + 1, x :: xs => ((combinationsL n xs).map fun c => x :: c) ++ combinationsL (n + 1) xs

/-- The sequence of combinations processed by the `for current_tags in ...`
loop of `CreateTagIndices` (generic in the element type, so that the same
enumeration can also be taken over the list of positions). -/
def enumerate {α : Type} (taglist : List α) (depth : Nat) : List (List α) :=
  (List.range (depth + 1)).flatMap fun L => combinationsL L taglist

/-- `depth = min(4, len(taglist))` from `CreateTagIndices`. -/
def depthFor (taglist : List Tag) : Nat := min 4 taglist.length

/-- `nindices = sum([comb(len(taglist), L) for L in range(depth - 1)])` from
`CreateTagIndices` (`n` abbreviates `len(taglist)`). -/
def nindices (n depth : Nat) : Nat :=
  ((List.range (depth - 1)).map fun L => n.choose L).sum

theorem length_combinationsL {α : Type} : ∀ (n : Nat) (l : List α),
    (combinationsL n l).length = l.length.choose n
  | 0, l => by simp [combinationsL]
  | n + 1, [] => by simp [combinationsL]
  | n + 1, x :: xs => by
    rw [combinationsL, List.length_append, List.length_map,
      length_combinationsL n xs, length_combinationsL (n + 1) xs,
      List.length_cons, Nat.choose_succ_succ]

theorem length_of_mem_combinationsL {α : Type} : ∀ (n : Nat) (l : List α) (c : List α),
    c ∈ combinationsL n l → c.length = n
  | 0, l, c, h => by
    simp only [combinationsL, List.mem_singleton] at h
    simp [h]
  | n + 1, [], c, h => by simp [combinationsL] at h
  | n + 1, x :: xs, c, h => by
    rw [combinationsL, List.mem_append] at h
    rcases h with h | h
    · rw [List.mem_map] at h
      obtain ⟨c', hc', rfl⟩ := h
      rw [List.length_cons, length_of_mem_combinationsL n xs c' hc']
    · exact length_of_mem_combinationsL (n + 1) xs c h

theorem sublist_of_mem_combinationsL {α : Type} : ∀ (n : Nat) (l : List α) (c : List α),
    c ∈ combinationsL n l → c.Sublist l
  | 0, l, c, h => by
    simp only [combinationsL, List.mem_singleton] at h
    simp [h]
  | n + 1, [], c, h => by simp [combinationsL] at h
  | n + 1, x :: xs, c, h => by
    rw [combinationsL, List.mem_append] at h
    rcases h with h | h
    · rw [List.mem_map] at h
      obtain ⟨c', hc', rfl⟩ := h
      exact (sublist_of_mem_combinationsL n xs c' hc').cons₂ x
    · exact (sublist_of_mem_combinationsL (n + 1) xs c h).cons x

theorem pairwise_le_of_const {l : List Nat} (n : Nat) (h : ∀ x ∈ l, x = n) :
    l.Pairwise (· ≤ ·) := by
  induction l with
  | nil => exact List.Pairwise.nil
  | cons a l ih =>
    refine List.Pairwise.cons ?_ (ih fun x hx => h x (List.mem_cons_of_mem a hx))
    intro b hb
    rw [h a (List.mem_cons_self a l), h b (List.mem_cons_of_mem a hb)]

/-- Claim C3 (evaluation): the loop of `CreateTagIndices` processes exactly
`Σ C(n, L)` combinations for `L = 0 .. depth`, but the expected count
`nindices` computed for the progress bar sums only `L = 0 .. depth − 2`
(`range(depth - 1)`); with 4 distinct tags (so `depth = min(4, 4) = 4`) the
loop enumerates 16 combinations while the reported expected count is 11. -/
theorem expected_count_mismatch :
    (∀ (l : List Tag) (d : Nat),
      (enumerate l d).length = ((List.range (d + 1)).map fun L => l.length.choose L).sum)
    ∧ (enumerate ["t1", "t2", "t3", "t4"] (depthFor ["t1", "t2", "t3", "t4"])).length = 16
    ∧ nindices 4 (depthFor ["t1", "t2", "t3", "t4"]) = 11 := by
  refine ⟨?_, by decide, by decide⟩
  intro l d
  rw [enumerate, List.length_flatMap]
  congr 1
  exact List.map_congr_left fun L _ => length_combinationsL L l

/-- Naturality: `itertools.combinations` commutes with relabelling the input
elements. -/
theorem combinationsL_map {α β : Type} (f : α → β) : ∀ (n : Nat) (l : List α),
    combinationsL n (l.map f) = (combinationsL n l).map (List.map f)
  | 0, l => by simp [combinationsL]
  | n + 1, [] => by simp [combinationsL]
  | n + 1, x :: xs => by
    simp only [List.map_cons, combinationsL, combinationsL_map f n xs,
      combinationsL_map f (n + 1) xs, List.map_append, List.map_map]
    congr 1

theorem map_getD_range : ∀ (l : List Tag),
    (List.range l.length).map (fun i => l.getD i "") = l
  | [] => rfl
  | x :: xs => by
    rw [List.length_cons, List.range_succ_eq_map, List.map_cons, List.map_map]
    have h2 : ((fun i => (x :: xs).getD i "") ∘ Nat.succ) = fun i => xs.getD i "" := by
      funext i
      simp
    rw [List.getD_cons_zero, h2, map_getD_range xs]

/-- The whole enumeration over a tag list is the positional image of the
enumeration over the list of positions `0 .. len − 1`. -/
theorem enumerate_eq_map_index (l : List Tag) (d : Nat) :
    enumerate l d
      = (enumerate (List.range l.length) d).map (List.map fun i => l.getD i "") := by
  rw [enumerate, enumerate, List.map_flatMap, List.flatMap, List.flatMap]
  congr 1
  exact List.map_congr_left fun L _ => by
    rw [← combinationsL_map, map_getD_range]

/-- Over a strictly sorted input (such as the position list `range m`),
`itertools.combinations` emits combinations in strictly increasing
lexicographic order. -/
theorem combinationsL_pairwise_lex {α : Type} {r : α → α → Prop} :
    ∀ (n : Nat) (l : List α), l.Pairwise r → (combinationsL n l).Pairwise (List.Lex r)
  | 0, l, _ => by simp [combinationsL]
  | n + 1, [], _ => by simp [combinationsL]
  | n + 1, x :: xs, h => by
    obtain ⟨hx, hxs⟩ := List.pairwise_cons.mp h
    rw [combinationsL, List.pairwise_append]
    refine ⟨List.Pairwise.map _ (fun a b hab => List.Lex.cons hab)
        (combinationsL_pairwise_lex n xs hxs),
      combinationsL_pairwise_lex (n + 1) xs hxs, ?_⟩
    intro c₁ hc₁ c₂ hc₂
    rw [List.mem_map] at hc₁
    obtain ⟨c₁', hc₁', rfl⟩ := hc₁
    cases c₂ with
    | nil =>
      have hlen := length_of_mem_combinationsL (n + 1) xs [] hc₂
      simp at hlen
    | cons y c₂' =>
      exact List.Lex.rel (hx y
        ((sublist_of_mem_combinationsL (n + 1) xs (y :: c₂') hc₂).subset
          (List.mem_cons_self y c₂')))

/-- Claim C8 (amended): the enumeration is a pure function of the tag list and
the depth (hence deterministic and restartable), it is ordered by increasing
combination size, and combinations of equal size appear in the positional
order inherited from the tag list: every combination is a subsequence of the
tag list, the whole enumeration is the positional image of the enumeration
over the position list `range len` (whose size-`L` segment is by definition
`combinationsL L (range len)`), and those position combinations are pairwise
strictly increasing in the lexicographic order on positions — the itertools
order, which coincides with lexicographic tag order only when the tag list is
itself sorted. -/
theorem enumeration_order (l : List Tag) (d : Nat) :
    List.Sorted (· ≤ ·) ((enumerate l d).map List.length)
    ∧ (∀ c ∈ enumerate l d, c.Sublist l)
    ∧ enumerate l d
        = (enumerate (List.range l.length) d).map (List.map fun i => l.getD i "")
    ∧ ∀ L : Nat, (combinationsL L (List.range l.length)).Pairwise (List.Lex (· < ·)) := by
  refine ⟨?_, ?_, enumerate_eq_map_index l d,
    fun L => combinationsL_pairwise_lex L (List.range l.length)
      (List.pairwise_lt_range l.length)⟩
  · rw [enumerate, List.map_flatMap, List.flatMap, List.Sorted, List.pairwise_flatten]
    constructor
    · intro l' hl'
      rw [List.mem_map] at hl'
      obtain ⟨L, hL, rfl⟩ := hl'
      refine pairwise_le_of_const L fun x hx => ?_
      rw [List.mem_map] at hx
      obtain ⟨c, hc, rfl⟩ := hx
      exact length_of_mem_combinationsL L l c hc
    · refine List.Pairwise.map _ ?_ (List.pairwise_lt_range (d + 1))
      intro L₁ L₂ hlt x hx y hy
      rw [List.mem_map] at hx hy
      obtain ⟨c₁, hc₁, rfl⟩ := hx
      obtain ⟨c₂, hc₂, rfl⟩ := hy
      rw [length_of_mem_combinationsL L₁ l c₁ hc₁, length_of_mem_combinationsL L₂ l c₂ hc₂]
      exact Nat.le_of_lt hlt
  · intro c hc
    rw [enumerate, List.mem_flatMap] at hc
    obtain ⟨L, -, hc⟩ := hc
    exact sublist_of_mem_combinationsL L l c hc

/-- Claim C8 (counterexample to claim as stated): when the tag list is not
sorted — dict key order is insertion order, not sorted order — equal-size
combinations do not appear in lexicographic order: for taglist `["b", "a"]`
the size-1 combinations are enumerated as `("b",)` then `("a",)` although
`"a" < "b"`. -/
theorem enumeration_order_cex :
    enumerate ["b", "a"] 2 = [[], ["b"], ["a"], ["b", "a"]] ∧ ("a" : Tag) < "b" := by
  refine ⟨by decide, String.lt_iff_toList_lt.mpr (by decide)⟩

/-- Claim C8 witness: instantiation of `enumeration_order` on a concrete
two-tag list. -/
theorem enumeration_order_witness :
    List.Sorted (· ≤ ·) ((enumerate ["a", "b"] 2).map List.length)
    ∧ (["a"] : List Tag).Sublist ["a", "b"]
    ∧ enumerate ["a", "b"] 2
        = (enumerate (List.range (["a", "b"] : List Tag).length) 2).map
            (List.map fun i => (["a", "b"] : List Tag).getD i "")
    ∧ (combinationsL 1 (List.range (["a", "b"] : List Tag).length)).Pairwise
        (List.Lex (· < ·)) :=
  ⟨(enumeration_order ["a", "b"] 2).1,
   (enumeration_order ["a", "b"] 2).2.1 ["a"] (by decide),
   (enumeration_order ["a", "b"] 2).2.2.1,
   (enumeration_order ["a", "b"] 2).2.2.2 1⟩

/-! Index page identifiers:
`current_tags = tuple(sorted(current_tags))` and
`indexname = "index%s.rst" % "".join(["_" + x for x in current_tags])`. -/

/-- `tuple(sorted(current_tags))`: Python's stable ascending sort under the
lexicographic string order. -/
def sortTags (l : List Tag) : List Tag := List.insertionSort (· ≤ ·) l

/-- `"".join(["_" + x for x in current_tags])`, at character level. -/
def encodeTags (ts : List Tag) : List Char :=
  (ts.map fun x => '_' :: x.data).flatten

/-- `"index%s.rst" % ...`: the generated index file name, at character level. -/
def indexname (ts : List Tag) : List Char :=
  "index".data ++ encodeTags ts ++ ".rst".data

/-- A tag not containing the separator character of the identifier encoding. -/
abbrev underscoreFree (t : Tag) : Prop := '_' ∉ t.data

theorem encodeTags_cons (t : Tag) (ts : List Tag) :
    encodeTags (t :: ts) = '_' :: (t.data ++ encodeTags ts) := by
  simp [encodeTags]

theorem encodeTags_head (ts : List Tag) :
    encodeTags ts = [] ∨ ∃ r, encodeTags ts = '_' :: r := by
  cases ts with
  | nil => exact Or.inl rfl
  | cons t ts => exact Or.inr ⟨t.data ++ encodeTags ts, encodeTags_cons t ts⟩

theorem split_first_block : ∀ (a₁ : List Char) {b₁ a₂ b₂ : List Char},
    a₁ ++ b₁ = a₂ ++ b₂ → '_' ∉ a₁ → '_' ∉ a₂ →
    (b₁ = [] ∨ ∃ r, b₁ = '_' :: r) → (b₂ = [] ∨ ∃ r, b₂ = '_' :: r) →
    a₁ = a₂ ∧ b₁ = b₂
  | [], b₁, a₂, b₂, he, _, hu₂, hb₁, _ => by
    rw [List.nil_append] at he
    rcases hb₁ with rfl | ⟨r, rfl⟩
    · obtain ⟨rfl, rfl⟩ := List.append_eq_nil.mp he.symm
      exact ⟨rfl, rfl⟩
    · cases a₂ with
      | nil =>
        rw [List.nil_append] at he
        exact ⟨rfl, he⟩
      | cons c₂ a₂ =>
        rw [List.cons_append] at he
        injection he with h1 h2
        exact absurd (show ('_' : Char) ∈ c₂ :: a₂ by
          rw [← h1]; exact List.mem_cons_self _ _) hu₂
  | c :: a₁, b₁, a₂, b₂, he, hu₁, hu₂, hb₁, hb₂ => by
    cases a₂ with
    | nil =>
      rw [List.nil_append, List.cons_append] at he
      rcases hb₂ with rfl | ⟨r, rfl⟩
      · cases he
      · injection he with h1 h2
        exact absurd (show ('_' : Char) ∈ c :: a₁ by
          rw [h1]; exact List.mem_cons_self _ _) hu₁
    | cons c₂ a₂ =>
      rw [List.cons_append, List.cons_append] at he
      injection he with h1 h2
      obtain ⟨ha, hb⟩ := split_first_block a₁ h2
        (fun hm => hu₁ (List.mem_cons_of_mem c hm))
        (fun hm => hu₂ (List.mem_cons_of_mem c₂ hm)) hb₁ hb₂
      exact ⟨by rw [h1, ha], hb⟩

theorem encodeTags_inj : ∀ (ts₁ ts₂ : List Tag),
    (∀ t ∈ ts₁, underscoreFree t) → (∀ t ∈ ts₂, underscoreFree t) →
    encodeTags ts₁ = encodeTags ts₂ → ts₁ = ts₂
  | [], [], _, _, _ => rfl
  | [], t₂ :: ts₂, _, _, he => by
    rw [encodeTags_cons] at he
    simp [encodeTags] at he
  | t₁ :: ts₁, [], _, _, he => by
    rw [encodeTags_cons] at he
    simp [encodeTags] at he
  | t₁ :: ts₁, t₂ :: ts₂, h₁, h₂, he => by
    rw [encodeTags_cons, encodeTags_cons] at he
    injection he with h0 hrest
    obtain ⟨hd, hb⟩ := split_first_block t₁.data hrest
      (h₁ t₁ (List.mem_cons_self _ _)) (h₂ t₂ (List.mem_cons_self _ _))
      (encodeTags_head ts₁) (encodeTags_head ts₂)
    have ht : t₁ = t₂ := String.toList_inj.mp hd
    have hts := encodeTags_inj ts₁ ts₂
      (fun t hm => h₁ t (List.mem_cons_of_mem t₁ hm))
      (fun t hm => h₂ t (List.mem_cons_of_mem t₂ hm)) hb
    rw [ht, hts]

theorem sortTags_perm_inv {l₁ l₂ : List Tag} (h : l₁.Perm l₂) : sortTags l₁ = sortTags l₂ :=
  List.eq_of_perm_of_sorted
    (((List.perm_insertionSort _ l₁).trans h).trans (List.perm_insertionSort _ l₂).symm)
    (List.sorted_insertionSort _ l₁) (List.sorted_insertionSort _ l₂)

/-- Claim C4 (amended): over combinations of tags that contain no underscore
the generated index file names are injective, and tag order never matters —
the name is computed from the sorted tuple, so any two permutations of the
same tags get the same identifier.  Tags containing `_` can collide (see the
counterexample), since `_` is also the separator of the encoding. -/
theorem indexname_injective :
    (∀ ts₁ ts₂ : List Tag, (∀ t ∈ ts₁, underscoreFree t) → (∀ t ∈ ts₂, underscoreFree t) →
      indexname ts₁ = indexname ts₂ → ts₁ = ts₂)
    ∧ ∀ l₁ l₂ : List Tag, l₁.Perm l₂ → indexname (sortTags l₁) = indexname (sortTags l₂) := by
  constructor
  · intro ts₁ ts₂ h₁ h₂ he
    rw [indexname, indexname] at he
    exact encodeTags_inj ts₁ ts₂ h₁ h₂
      (List.append_cancel_left (List.append_cancel_right he))
  · intro l₁ l₂ h
    rw [sortTags_perm_inv h]

/-- Claim C4 (counterexample to claim as stated): `("a", "b")` and `("a_b",)`
are two distinct sorted combinations, yet both produce the file name
`index_a_b.rst`, because tags may contain the separator `_`. -/
theorem indexname_injective_cex :
    List.Sorted (· ≤ ·) (["a", "b"] : List Tag)
    ∧ List.Sorted (· ≤ ·) (["a_b"] : List Tag)
    ∧ (["a", "b"] : List Tag) ≠ ["a_b"]
    ∧ indexname ["a", "b"] = indexname ["a_b"] := by
  refine ⟨?_, ?_, by decide, by decide⟩
  · rw [List.sorted_cons]
    refine ⟨?_, List.sorted_singleton "b"⟩
    intro t ht
    rw [List.mem_singleton] at ht
    subst ht
    exact String.le_iff_toList_le.mpr (by decide)
  · exact List.sorted_singleton "a_b"

/-- Claim C4 witness: instantiation of `indexname_injective` — the two tag
orders `["b", "a"]` and `["a", "b"]` yield the same identifier, and on equal
underscore-free inputs injectivity applies. -/
theorem indexname_injective_witness :
    indexname (sortTags ["b", "a"]) = indexname (sortTags ["a", "b"])
    ∧ (["a"] : List Tag) = ["a"] :=
  ⟨indexname_injective.2 ["b", "a"] ["a", "b"] (by decide),
   indexname_injective.1 ["a"] ["a"] (by decide) (by decide) (by decide)⟩

/-! The `KeywordIndex` class: `add` appends to `self._documents`, and the
`tagdict` property rebuilds the reverse index with
`tagdict.setdefault(tag, list()).append(userdoc.filename.name)`. -/

/-- A parsed `UserDoc`; `filename` stands for `filename.name`, the only part
`tagdict` uses. -/
structure UserDoc where
  doc : String
  tags : List Tag
  filename : String
deriving DecidableEq

/-- `KeywordIndex._documents`. -/
abbrev KeywordIndex := List UserDoc

/-- `KeywordIndex.add`: `self._documents.append(userdoc)`. -/
def KeywordIndex.add (idx : KeywordIndex) (userdoc : UserDoc) : KeywordIndex :=
  idx ++ [userdoc]

/-- The `tagdict` property, as a function from a tag to the list the built
dict maps it to: for each document in order, for each occurrence of the tag in
the document's tag list, the document's file name is appended. -/
def tagdict (idx : KeywordIndex) (t : Tag) : List String :=
  idx.flatMap fun u => (u.tags.filter fun x => decide (x = t)).map fun _ => u.filename

/-- Claim C5 (amended): `tagdict` has list semantics, not set semantics —
adding the same document a second time appends its file name once more to the
list of every tag it carries, so the mapping after two adds is idempotent only
up to duplicates: per tag, the underlying set of file names is unchanged. -/
theorem tagdict_add_twice (idx : KeywordIndex) (u : UserDoc) (t : Tag) :
    tagdict ((idx.add u).add u) t
      = tagdict (idx.add u) t ++ ((u.tags.filter fun x => decide (x = t)).map fun _ => u.filename)
    ∧ (tagdict ((idx.add u).add u) t).toFinset = (tagdict (idx.add u) t).toFinset := by
  have h : tagdict ((idx.add u).add u) t
      = tagdict (idx.add u) t
        ++ ((u.tags.filter fun x => decide (x = t)).map fun _ => u.filename) := by
    rw [KeywordIndex.add, tagdict, List.flatMap_append, tagdict]
    simp [KeywordIndex.add]
  refine ⟨h, ?_⟩
  rw [h, KeywordIndex.add, tagdict, List.flatMap_append]
  simp only [List.toFinset_append, List.flatMap_cons, List.flatMap_nil, List.append_nil]
  rw [Finset.union_assoc, Finset.union_self]

/-- Claim C5 (counterexample to claim as stated): adding the document
`d1.rst`, tagged `A`, twice makes `tagdict` map `A` to the two-element list
`["d1.rst", "d1.rst"]`, not to the one-element list obtained after a single
add — duplicates are not removed. -/
theorem tagdict_add_twice_cex :
    tagdict ((KeywordIndex.add [] ⟨"doc", ["A"], "d1.rst"⟩).add ⟨"doc", ["A"], "d1.rst"⟩) "A"
      = ["d1.rst", "d1.rst"]
    ∧ tagdict (KeywordIndex.add [] ⟨"doc", ["A"], "d1.rst"⟩) "A" = ["d1.rst"]
    ∧ (["d1.rst", "d1.rst"] : List String) ≠ ["d1.rst"] := by
  refine ⟨by decide, by decide, by decide⟩

/-! The `NOINDEX` sentinel.  `CreateTagIndices` removes `"NOINDEX"` and `""`
from the tag list before enumerating combinations, and `rst_index` skips every
dict entry whose key contains `"NOINDEX"` (Python substring test `in` on a
string key). -/

/-- `taglist = list(tags.keys())`, then `taglist.remove("NOINDEX")` and
`taglist.remove("")` when present (`remove` drops the first occurrence; dict
keys are distinct, so the only one). -/
def taglistOf (ks : List Tag) : List Tag := (ks.erase "NOINDEX").erase ""

/-- Whether `pat` occurs at the start of a character list. -/
def startsWithL : List Char → List Char → Bool
  | [], _ => true
  | _ :: _, [] => false
  | p :: ps, c :: cs => p == c && startsWithL ps cs

/-- Python substring test `pat in s`. -/
def hasSubstr (pat : List Char) : List Char → Bool
  | [] => startsWithL pat []
  | c :: cs => startsWithL pat (c :: cs) || hasSubstr pat cs

/-- The per-entry check `if "NOINDEX" in tags: continue` of `rst_index` for a
string key. -/
def skipKey (k : Tag) : Bool := hasSubstr "NOINDEX".data k.data

/-- Documents emitted on the page rendered from a string-keyed tag → set dict
(the recursive call of `rst_index` on the tree of a `make_hierarchy` node):
entries whose key contains `NOINDEX` are skipped, the document sets of all
other entries are listed. -/
def renderedDocsTree (tree : List (Tag × Finset Doc)) : Finset Doc :=
  unionVals (tree.filter fun kv => !skipKey kv.1)

/-- Documents emitted on the root page: `make_hierarchy(tags)` with no
basetags returns the flat dict unchanged, and `rst_index` lists each
non-skipped entry's document list. -/
def renderedDocsFlat (tags : TagMap) : Finset Doc :=
  unionVals ((tags.filter fun kv => !skipKey kv.1).map fun kv => (kv.1, kv.2.toFinset))

/-- A document whose only tag is `NOINDEX`: it appears in no document list of
any other tag. -/
abbrev onlyNOINDEX (d : Doc) (tags : TagMap) : Prop :=
  ∀ kv ∈ tags, d ∈ kv.2 → kv.1 = "NOINDEX"

theorem mem_dictInsert {tree : List (Tag × Finset Doc)} {k : Tag} {v : Finset Doc}
    {kv : Tag × Finset Doc} (h : kv ∈ dictInsert tree k v) : kv ∈ tree ∨ kv = (k, v) := by
  rw [dictInsert] at h
  by_cases hc : (tree.any fun kv => decide (kv.1 = k)) = true
  · rw [if_pos hc] at h
    rw [List.mem_map] at h
    obtain ⟨kv', hkv', he⟩ := h
    by_cases hk : kv'.1 = k
    · rw [if_pos hk] at he
      exact Or.inr he.symm
    · rw [if_neg hk] at he
      exact Or.inl (he ▸ hkv')
  · rw [if_neg hc, List.mem_append, List.mem_singleton] at h
    exact h

theorem make_tree_val_subset {tags : TagMap} {basetags : List Tag} {b : Finset Doc}
    {kv : Tag × Finset Doc} (h : kv ∈ make_tree tags basetags b) : kv.2 ⊆ b := by
  rw [make_tree] at h
  by_cases h0 : treeOf tags basetags b = []
  · rw [if_pos h0] at h
    cases h
  · rw [if_neg h0] at h
    by_cases hr : (b \ unionVals (treeOf tags basetags b)).Nonempty
    · rw [if_pos hr] at h
      rcases mem_dictInsert h with h | h
      · exact treeOf_val_subset h
      · rw [h]
        exact Finset.sdiff_subset
    · rw [if_neg hr] at h
      exact treeOf_val_subset h

theorem foldl_inter_subset_init : ∀ (rest : List (Finset Doc)) (s : Finset Doc),
    rest.foldl (fun a b => a ∩ b) s ⊆ s
  | [], s => Finset.Subset.refl s
  | x :: rest, s => (foldl_inter_subset_init rest (s ∩ x)).trans Finset.inter_subset_left

theorem baseitems_subset_entry {tags : TagMap} {basetags : List Tag} {b : Finset Doc}
    (h : baseitemsOf tags basetags = some b) :
    ∃ kv ∈ tags, kv.1 ∈ basetags ∧ b ⊆ kv.2.toFinset := by
  rw [baseitemsOf] at h
  rcases hf : tags.filter fun kv => decide (kv.1 ∈ basetags) with _ | ⟨kv₀, rest⟩
  · rw [hf] at h
    simp at h
  · rw [hf] at h
    simp only [List.map_cons] at h
    obtain rfl := Option.some.inj h
    obtain ⟨hmem, hcond⟩ := List.mem_filter.mp (hf ▸ List.mem_cons_self kv₀ rest)
    exact ⟨kv₀, hmem, by simpa using hcond,
      foldl_inter_subset_init (rest.map fun kv => kv.2.toFinset) kv₀.2.toFinset⟩

theorem skipKey_NOINDEX : skipKey "NOINDEX" = true := by decide

/-- Claim C6: the sentinel tag `NOINDEX` never occurs in an enumerated
combination (it is removed from the tag list before enumeration), and a
document carrying no tag other than `NOINDEX` is listed neither on the root
index page nor on the page of any non-empty combination free of `NOINDEX` —
such a document can only ever surface through a further, non-`NOINDEX` tag. -/
theorem noindex_never_rendered :
    (∀ (ks : List Tag) (dep : Nat), ks.Nodup → ∀ c ∈ enumerate (taglistOf ks) dep,
      "NOINDEX" ∉ c)
    ∧ ∀ (tags : TagMap) (d : Doc), onlyNOINDEX d tags →
        d ∉ renderedDocsFlat tags
        ∧ ∀ (basetags : List Tag) (tree : List (Tag × Finset Doc)), basetags ≠ [] →
            "NOINDEX" ∉ basetags →
            make_hierarchy tags basetags = some (.node basetags tree) →
            d ∉ renderedDocsTree tree := by
  constructor
  · intro ks dep hnd c hc hmem
    have hsub := (enumeration_order (taglistOf ks) dep).2.1 c hc
    have hN : "NOINDEX" ∈ taglistOf ks := hsub.subset hmem
    have hN' : "NOINDEX" ∈ ks.erase "NOINDEX" := List.mem_of_mem_erase hN
    exact (hnd.mem_erase_iff.mp hN').1 rfl
  · intro tags d honly
    constructor
    · intro hd
      rw [renderedDocsFlat, mem_unionVals] at hd
      obtain ⟨kv', hkv', hdm⟩ := hd
      rw [List.mem_map] at hkv'
      obtain ⟨kv, hkv, rfl⟩ := hkv'
      obtain ⟨hmem, hcond⟩ := List.mem_filter.mp hkv
      have hk : kv.1 = "NOINDEX" := honly kv hmem (by simpa using hdm)
      rw [hk, skipKey_NOINDEX] at hcond
      simp at hcond
    · intro basetags tree hne hnoidx hmk hd
      rw [make_hierarchy, if_neg hne] at hmk
      obtain ⟨b, hb, hnode⟩ := Option.map_eq_some'.mp hmk
      obtain ⟨-, htree⟩ := Hier.node.inj hnode
      subst htree
      obtain ⟨kv₀, hkv₀, hkb, hsub⟩ := baseitems_subset_entry hb
      have hdb : d ∉ b := by
        intro hdb
        have hk := honly kv₀ hkv₀ (List.mem_toFinset.mp (hsub hdb))
        rw [hk] at hkb
        exact hnoidx hkb
      rw [renderedDocsTree, mem_unionVals] at hd
      obtain ⟨kv, hkv, hdm⟩ := hd
      exact hdb (make_tree_val_subset (List.mem_filter.mp hkv).1 hdm)

/-- Claim C6 witness: instantiation of `noindex_never_rendered` on the TagMap
`[("NOINDEX", [d4]), ("A", [d1])]` where `d4` carries only the `NOINDEX` tag:
the only size-1 combination is `("A",)`, and `d4` is not on the root page. -/
theorem noindex_never_rendered_witness :
    "NOINDEX" ∉ (["A"] : List Tag)
    ∧ "d4" ∉ renderedDocsFlat [("NOINDEX", ["d4"]), ("A", ["d1"])] :=
  ⟨noindex_never_rendered.1 ["NOINDEX", "A"] 2 (by decide) ["A"] (by decide),
   (noindex_never_rendered.2 [("NOINDEX", ["d4"]), ("A", ["d1"])] "d4" (by decide)).1⟩

/-! Display casing: the `rightcase` helper of `rewrite_see_also`
(`if text != text.upper(): return text.title(); return text`).  Python's
`str.upper` and `str.title` are modelled for the basic-latin letters (the
same range Lean's own `Char.toUpper`/`Char.toLower` handle): `title`
uppercases every letter that follows a non-letter and lowercases every other
letter. -/

theorem char_toNat_ofNat (n : Nat) (h : n.isValidChar) : (Char.ofNat n).toNat = n := by
  rw [Char.ofNat, dif_pos h]
  rfl

/-- Per-character `str.upper` for ASCII. -/
def chUpper (c : Char) : Char :=
  if 97 ≤ c.toNat ∧ c.toNat ≤ 122 then Char.ofNat (c.toNat - 32) else c

/-- Per-character `str.lower` for ASCII. -/
def chLower (c : Char) : Char :=
  if 65 ≤ c.toNat ∧ c.toNat ≤ 90 then Char.ofNat (c.toNat + 32) else c

/-- Cased-character test (`str.isalpha` for ASCII), which drives `str.title`
word boundaries. -/
def chIsAlpha (c : Char) : Bool :=
  decide ((65 ≤ c.toNat ∧ c.toNat ≤ 90) ∨ (97 ≤ c.toNat ∧ c.toNat ≤ 122))

/-- `str.title`: the boolean argument records whether the previous character
was cased. -/
def titleAux : Bool → List Char → List Char
  | _, [] => []
  | prev, c :: cs =>
    (if chIsAlpha c then (if prev then chLower c else chUpper c) else c)
      :: titleAux (chIsAlpha c) cs

/-- `text.upper()`. -/
def pyUpper (s : String) : String := ⟨s.data.map chUpper⟩

/-- `text.title()`. -/
def pyTitle (s : String) : String := ⟨titleAux false s.data⟩

/-- `rightcase` from `rewrite_see_also`: title-case any text that is not
already all upper-case, return acronyms (all upper-case text) unchanged. -/
def rightcase (text : String) : String :=
  if text = pyUpper text then text else pyTitle text

theorem chUpper_toNat {c : Char} (h : 97 ≤ c.toNat ∧ c.toNat ≤ 122) :
    (chUpper c).toNat = c.toNat - 32 := by
  rw [chUpper, if_pos h, char_toNat_ofNat]
  exact Or.inl (by omega)

theorem chLower_toNat {c : Char} (h : 65 ≤ c.toNat ∧ c.toNat ≤ 90) :
    (chLower c).toNat = c.toNat + 32 := by
  rw [chLower, if_pos h, char_toNat_ofNat]
  exact Or.inl (by omega)

theorem chUpper_eq_self {c : Char} (h : ¬(97 ≤ c.toNat ∧ c.toNat ≤ 122)) : chUpper c = c := by
  rw [chUpper, if_neg h]

theorem chLower_eq_self {c : Char} (h : ¬(65 ≤ c.toNat ∧ c.toNat ≤ 90)) : chLower c = c := by
  rw [chLower, if_neg h]

theorem chIsAlpha_chUpper (c : Char) : chIsAlpha (chUpper c) = chIsAlpha c := by
  by_cases h : 97 ≤ c.toNat ∧ c.toNat ≤ 122
  · rw [chIsAlpha, chIsAlpha, chUpper_toNat h]
    rw [decide_eq_decide]
    omega
  · rw [chUpper_eq_self h]

theorem chIsAlpha_chLower (c : Char) : chIsAlpha (chLower c) = chIsAlpha c := by
  by_cases h : 65 ≤ c.toNat ∧ c.toNat ≤ 90
  · rw [chIsAlpha, chIsAlpha, chLower_toNat h]
    rw [decide_eq_decide]
    omega
  · rw [chLower_eq_self h]

theorem chUpper_chUpper (c : Char) : chUpper (chUpper c) = chUpper c := by
  by_cases h : 97 ≤ c.toNat ∧ c.toNat ≤ 122
  · exact chUpper_eq_self (by rw [chUpper_toNat h]; omega)
  · simp only [chUpper_eq_self h]

theorem chLower_chLower (c : Char) : chLower (chLower c) = chLower c := by
  by_cases h : 65 ≤ c.toNat ∧ c.toNat ≤ 90
  · exact chLower_eq_self (by rw [chLower_toNat h]; omega)
  · simp only [chLower_eq_self h]

theorem titleAux_idem : ∀ (l : List Char) (b : Bool),
    titleAux b (titleAux b l) = titleAux b l
  | [], _ => rfl
  | c :: cs, b => by
    by_cases ha : chIsAlpha c = true
    · cases b with
      | false =>
        simp [titleAux, ha, chIsAlpha_chUpper, chUpper_chUpper, titleAux_idem cs true]
      | true =>
        simp [titleAux, ha, chIsAlpha_chLower, chLower_chLower, titleAux_idem cs true]
    · have hb : chIsAlpha c = false := by simpa using ha
      simp [titleAux, hb, titleAux_idem cs false]

theorem pyTitle_idem (s : String) : pyTitle (pyTitle s) = pyTitle s :=
  congrArg String.mk (titleAux_idem s.data false)

/-- Claim C9: `rightcase` is idempotent on every string, it preserves the
acronym `"EPSP"` unchanged, and it title-cases `"adaptive threshold"` to
`"Adaptive Threshold"`. -/
theorem rightcase_idem_acronym :
    (∀ s : String, rightcase (rightcase s) = rightcase s)
    ∧ rightcase "EPSP" = "EPSP"
    ∧ rightcase "adaptive threshold" = "Adaptive Threshold" := by
  refine ⟨?_, by decide, by decide⟩
  intro s
  by_cases h : s = pyUpper s
  · have hs : rightcase s = s := by rw [rightcase, if_pos h]
    rw [hs, hs]
  · have hs : rightcase s = pyTitle s := by rw [rightcase, if_neg h]
    rw [hs]
    by_cases h2 : pyTitle s = pyUpper (pyTitle s)
    · rw [rightcase, if_pos h2]
    · rw [rightcase, if_neg h2, pyTitle_idem]

end Userdocs
